import Mathlib

/-!
Verification of the client-side search-relevance core of
`docusaurus-search-local` (`src/theme/SearchBar/index.js`).

JavaScript strings are modelled as `List Char`.  Each definition below is a
direct shallow embedding of the corresponding code in the source file; line
numbers refer to `src/theme/SearchBar/index.js`.
-/

namespace DocusaurusSearchLocal

/-- JavaScript strings, modelled as lists of characters. -/
abbrev Str := List Char

/-! ## TermCodec

Encoding (lines 240–243): `terms.map (term => term.replace(/~/g, "~~")).join("~")`.
Decoding (lines 119–124): `param.split(/(?<!~)~(?!~)/).filter(e => e.length > 0)
.map(e => e.replace(/~~/g, "~"))`.
-/

/-- Embedding of `term.replace(/~/g, "~~")`: double every tilde in a term. -/
def esc (t : Str) : Str :=
  t.flatMap (fun c => if c = '~' then ['~', '~'] else [c])

/-- Embedding of `Array.prototype.join("~")` on a list of strings. -/
def joinTilde : List Str → Str
  | [] => []
  | [t] => t
  | t :: t' :: ts => t ++ '~' :: joinTilde (t' :: ts)

/-- Encoding of a term sequence (lines 240–243). -/
def encode (terms : List Str) : Str :=
  joinTilde (terms.map esc)

/-- Prepend a character to the first segment of a split result. -/
def consHead (c : Char) : List Str → List Str
  | [] => [[c]]
  | s :: ss => (c :: s) :: ss

/-- Embedding of `String.prototype.split(/(?<!~)~(?!~)/)`: split at every `~` that is
neither preceded (tracked by `prev`) nor followed by another `~`. -/
def splitLoneAux (prev : Option Char) : Str → List Str
  | [] => [[]]
  | c :: rest =>
    if c = '~' ∧ prev ≠ some '~' ∧ rest.head? ≠ some '~' then
      [] :: splitLoneAux (some c) rest
    else
      consHead c (splitLoneAux (some c) rest)

/-- Embedding of `String.prototype.replace(/~~/g, "~")`: left-to-right, non-overlapping
replacement of every doubled tilde by a single one. -/
def unescape : Str → Str
  | [] => []
  | [c] => [c]
  | c₁ :: c₂ :: rest =>
    if c₁ = '~' ∧ c₂ = '~' then '~' :: unescape rest
    else c₁ :: unescape (c₂ :: rest)

/-- Decoding of a highlight fragment (lines 119–124). -/
def decode (fragment : Str) : List Str :=
  ((splitLoneAux none fragment).filter (fun s => 0 < s.length)).map unescape


/-! ## encodeURIComponent

The selected-result handler percent-encodes the encoded terms with
JavaScript's `encodeURIComponent` (line 240) before embedding them in the
URL.  `encodeURIComponent` leaves the unreserved characters
`A–Z a–z 0–9 - _ . ! ~ * ' ( )` unchanged and replaces every other
character by the uppercase-hex percent-triples of its UTF-8 bytes.
-/

/-- Characters that `encodeURIComponent` leaves unchanged. -/
def isUnreservedURI (c : Char) : Bool :=
  c.isAlphanum || c ∈ ['-', '_', '.', '!', '~', '*', Char.ofNat 39, '(', ')']

/-- The UTF-8 bytes of a Unicode scalar value. -/
def utf8Bytes (c : Char) : List Nat :=
  if c.toNat < 0x80 then [c.toNat]
  else if c.toNat < 0x800 then
    [0xC0 ||| (c.toNat >>> 6), 0x80 ||| (c.toNat &&& 0x3F)]
  else if c.toNat < 0x10000 then
    [0xE0 ||| (c.toNat >>> 12), 0x80 ||| ((c.toNat >>> 6) &&& 0x3F),
     0x80 ||| (c.toNat &&& 0x3F)]
  else
    [0xF0 ||| (c.toNat >>> 18), 0x80 ||| ((c.toNat >>> 12) &&& 0x3F),
     0x80 ||| ((c.toNat >>> 6) &&& 0x3F), 0x80 ||| (c.toNat &&& 0x3F)]

/-- Uppercase hexadecimal digit. -/
def hexDigit (n : Nat) : Char :=
  ['0', '1', '2', '3', '4', '5', '6', '7', '8', '9',
   'A', 'B', 'C', 'D', 'E', 'F'].getD n '0'

/-- Percent-triple `%XY` of one byte. -/
def pctTriple (b : Nat) : Str :=
  ['%', hexDigit (b / 16), hexDigit (b % 16)]

/-- Embedding of `encodeURIComponent` on a single character. -/
def pctEncChar (c : Char) : Str :=
  if isUnreservedURI c then [c] else (utf8Bytes c).flatMap pctTriple

/-- JavaScript's `encodeURIComponent`. -/
def pctEnc (s : Str) : Str :=
  s.flatMap pctEncChar


/-! ## Query-parameter extraction (`getQueryParamter`, lines 48–60)

The value is returned verbatim from the search string: no
`decodeURIComponent` is applied.
-/

/-- One generic character split (`String.prototype.split("&")`,
`String.prototype.split("#")`). -/
def splitOnChar (sep : Char) : Str → List Str
  | [] => [[]]
  | c :: rest =>
    if c = sep then [] :: splitOnChar sep rest
    else consHead c (splitOnChar sep rest)

/-- The `for (const pair of ...)` loop of `getQueryParamter`: return the
remainder of the first pair that starts with `pre`, verbatim. -/
def findParam (pre : Str) : List Str → Option Str
  | [] => none
  | p :: rest =>
    if pre.isPrefixOf p then some (p.drop pre.length) else findParam pre rest

/-- Embedding of `getQueryParamter(location, name)` (lines 48–60), applied to
`location.search`. -/
def getQueryParamter (search : Str) (name : Str) : Option Str :=
  let s := if search.head? = some '?' then search.tail else search
  findParam (name ++ ['=']) (splitOnChar '&' s)


/-! ## Highlight effect (lines 104–128)

The effect reads the `highlight` query parameter, locates the content root
(`article`/`main`, external DOM — modelled by the flag `rootExists`),
decodes the terms and marks them.  The result `none` models the early
returns: no `Mark` object is created, no DOM mutation happens, and the
effect returns no cleanup, so teardown is a no-op.  `some terms` models
`mark.mark(terms)` with teardown `mark.unmark`. -/

/-- The terms marked by the highlight effect, or `none` when the effect
returns before creating the marker (lines 106–108, 116–118, 126–128). -/
def highlightEffect (search : Str) (rootExists : Bool) : Option (List Str) :=
  match getQueryParamter search ("highlight".toList) with
  | none => none
  | some param =>
    if param.isEmpty then none
    else if !rootExists then none
    else
      let terms := decode param
      if terms.isEmpty then none
      else some terms

/-! ## Query construction (lines 162–186) -/

/-- Wildcard mode of a clause (`lunr.Query.wildcard`); the source uses only
the default (`NONE`) and `TRAILING`. -/
inductive QWildcard where
  | noWildcard
  | trailing
deriving DecidableEq, Repr

/-- Presence of a clause (`lunr.Query.presence`); the source uses only the
default (`OPTIONAL`) and `REQUIRED`. -/
inductive QPresence where
  | optionalP
  | requiredP
deriving DecidableEq, Repr

/-- One `query.term(...)` call: the searched terms together with the
options object passed alongside them. -/
structure Clause where
  terms : List Str
  fields : List String
  boost : Nat
  wildcard : QWildcard
  presence : QPresence
deriving DecidableEq, Repr

/-- The query built by the `source` callback (lines 162–186).  `tokenize`
is the external tokenizer capability, passed as a function. -/
def buildQuery (tokenize : Str → List Str) (input : Str)
    (versioningEnabled : Bool) (versionToSearch : Str) : List Clause :=
  let terms := tokenize input
  [⟨terms, ["title"], 5, .noWildcard, .optionalP⟩,
   ⟨terms, ["title"], 5, .trailing, .optionalP⟩,
   ⟨terms, ["content"], 1, .noWildcard, .optionalP⟩,
   ⟨terms, ["content"], 1, .trailing, .optionalP⟩]
  ++ (if versioningEnabled then
        [⟨[versionToSearch], ["version"], 0, .noWildcard, .requiredP⟩]
      else [])

/-! ## Result ranking (lines 190–198) -/

/-- A `{ ref, score }` pair returned by `index.query`. -/
structure QueryResult where
  ref : Str
  score : ℚ
deriving DecidableEq, Repr

/-- A document of the loaded document table. -/
structure Document where
  id : Nat
  pageTitle : Str
  sectionTitle : Str
  sectionRoute : Str
deriving DecidableEq, Repr

/-- A result handed to the UI: the joined document (possibly missing),
the score and the query terms. -/
structure SearchResult where
  document : Option Document
  score : ℚ
  terms : List Str
deriving DecidableEq, Repr

/-- Embedding of `Number.prototype.toString()` for a natural-number id. -/
def natToStr (n : Nat) : Str :=
  (Nat.repr n).toList

/-- The query results surviving `.filter(r => r.score > 0).slice(0, 8)`
(lines 190–191). -/
def rankKept (results : List QueryResult) : List QueryResult :=
  (results.filter (fun r => decide (0 < r.score))).take 8

/-- The `.map` body (lines 192–198): join the ref against the document
table with `Array.prototype.find`. -/
def joinDoc (documents : List Document) (terms : List Str)
    (r : QueryResult) : SearchResult :=
  ⟨documents.find? (fun d => natToStr d.id == r.ref), r.score, terms⟩

/-- The full ranking pipeline (lines 190–198). -/
def rank (results : List QueryResult) (documents : List Document)
    (terms : List Str) : List SearchResult :=
  (rankKept results).map (joinDoc documents terms)

/-! ## Selected-result URL (lines 236–247) -/

/-- Embedding of `const [path, hash] = document.sectionRoute.split("#")`. -/
def splitHash (route : Str) : Str × Option Str :=
  match splitOnChar '#' route with
  | [] => ([], none)
  | [p] => (p, none)
  | p :: h :: _ => (p, some h)

/-- The URL pushed onto the history on `autocomplete:selected`
(lines 236–247). -/
def selectedUrl (sectionRoute : Str) (terms : List Str) : Str :=
  let ph := splitHash sectionRoute
  let url := ph.1 ++ "?highlight=".toList ++ pctEnc (encode terms)
  match ph.2 with
  | some h => if h.isEmpty then url else url ++ '#' :: h
  | none => url


/-! ## Load-state gate (lines 138–143, 250–253, 256–275)

`indexState` is checked and set synchronously at the start of `loadIndex`,
before any `await`; the check-and-set is therefore a single atomic step of
the event loop.  An intent (focus, mouse-over, icon click) runs that step;
a resolved load sets `done` (line 253); a rejected load aborts the async
function and leaves the state untouched (permanently `loading`). -/

/-- The value of the `indexState` ref: `"empty"`, `"loading"`, `"done"`. -/
inductive LoadState where
  | empty
  | loading
  | done
deriving DecidableEq, Repr

/-- Forward progress order of the gate. -/
def LoadState.rank : LoadState → Nat
  | .empty => 0
  | .loading => 1
  | .done => 2

/-- Events of the session: a load intent (focus / mouse-over / icon click),
a successful load completion, a failed load completion. -/
inductive LoadEvent where
  | intent
  | completeSuccess
  | completeFailure
deriving DecidableEq, Repr

/-- Session state: the gate plus the number of index fetches started. -/
structure SessionState where
  state : LoadState
  fetches : Nat
deriving DecidableEq, Repr

/-- One atomic step of the event loop (lines 139–143 for `intent`,
line 253 for `completeSuccess`; a rejected `Promise.all` leaves the state
untouched). -/
def step (s : SessionState) : LoadEvent → SessionState
  | .intent =>
    if s.state = .empty then ⟨.loading, s.fetches + 1⟩ else s
  | .completeSuccess =>
    if s.state = .loading then ⟨.done, s.fetches⟩ else s
  | .completeFailure => s

/-- Run a sequence of events from the initial state (`"empty"`, no fetch). -/
def runEvents (events : List LoadEvent) : SessionState :=
  events.foldl step ⟨.empty, 0⟩


/-! ## Proof infrastructure -/

/-- Prepend a string onto the first segment of a split result. -/
def consOnto (a : Str) : List Str → List Str
  | [] => [a]
  | s :: ss => (a ++ s) :: ss

/-- The character context after scanning `t` starting from context `prev`:
the last character of `t`, or `prev` when `t` is empty. -/
def ctxAfter (t : Str) (prev : Option Char) : Option Char :=
  match t.getLast? with
  | some c => some c
  | none => prev

/-- Total `countP` over a list of strings. -/
def sumCountP (p : Char → Bool) (l : List Str) : Nat :=
  (l.map (List.countP p)).sum

/-- Characters counted in the weight argument: `%` and `5`.  Both are left
unchanged by the decoder (they are not `~`), and every character escaped by
`encodeURIComponent` strictly increases their joint count. -/
def wPred (c : Char) : Bool :=
  c == '%' || c == '5'

/-- Characters that `encodeURIComponent` escapes. -/
def escPred (c : Char) : Bool :=
  !isUnreservedURI c

/-! ## Helper lemmas about the codec -/

theorem consHead_ne_nil (c : Char) (l : List Str) : consHead c l ≠ [] := by
  cases l <;> simp [consHead]

theorem splitLoneAux_ne_nil (prev : Option Char) (s : Str) :
    splitLoneAux prev s ≠ [] := by
  cases s with
  | nil => simp [splitLoneAux]
  | cons c rest =>
    simp only [splitLoneAux]
    split
    · simp
    · exact consHead_ne_nil _ _

theorem consOnto_nil_of_ne (l : List Str) (h : l ≠ []) : consOnto [] l = l := by
  cases l with
  | nil => exact absurd rfl h
  | cons s ss => simp [consOnto]

theorem consHead_consOnto (c : Char) (a : Str) (l : List Str) :
    consHead c (consOnto a l) = consOnto (c :: a) l := by
  cases l <;> rfl

theorem esc_nil : esc [] = [] := rfl

theorem esc_cons (c : Char) (t : Str) :
    esc (c :: t) = (if c = '~' then ['~', '~'] else [c]) ++ esc t := by
  simp [esc]

theorem esc_ne_nil (t : Str) (h : t ≠ []) : esc t ≠ [] := by
  cases t with
  | nil => exact absurd rfl h
  | cons c t' =>
    rw [esc_cons]
    split <;> simp

theorem esc_eq_nil_iff (t : Str) : esc t = [] ↔ t = [] := by
  constructor
  · intro h
    by_contra hne
    exact esc_ne_nil t hne h
  · intro h; subst h; rfl

theorem ctxAfter_nil (prev : Option Char) : ctxAfter [] prev = prev := rfl

theorem ctxAfter_cons (c : Char) (t' : Str) (prev : Option Char) :
    ctxAfter (c :: t') prev = ctxAfter t' (some c) := by
  cases t' with
  | nil => rfl
  | cons d t'' =>
    unfold ctxAfter
    rw [List.getLast?_cons_cons]
    cases hl : (d :: t'').getLast? with
    | some x => rfl
    | none =>
      rw [List.getLast?_eq_none_iff] at hl
      simp at hl

theorem ctxAfter_of_ne_nil (t : Str) (prev : Option Char) (h : t ≠ []) :
    ctxAfter t prev = t.getLast? := by
  unfold ctxAfter
  cases hl : t.getLast? with
  | some c => rfl
  | none =>
    rw [List.getLast?_eq_none_iff] at hl
    exact absurd hl h

/-- Scanning an escaped term never splits: the whole escaped term lands on
the front of the first segment produced for the remainder. -/
theorem splitLoneAux_esc_append (t : Str) : ∀ (prev : Option Char) (r : Str),
    splitLoneAux prev (esc t ++ r) =
      consOnto (esc t) (splitLoneAux (ctxAfter t prev) r) := by
  induction t with
  | nil =>
    intro prev r
    rw [esc_nil, List.nil_append, ctxAfter_nil,
      consOnto_nil_of_ne _ (splitLoneAux_ne_nil _ _)]
  | cons c t' ih =>
    intro prev r
    rw [esc_cons, ctxAfter_cons]
    by_cases hc : c = '~'
    · subst hc
      rw [if_pos rfl]
      show splitLoneAux prev ('~' :: '~' :: (esc t' ++ r)) = _
      simp only [splitLoneAux]
      rw [if_neg (by simp), if_neg (by simp)]
      rw [ih (some '~') r, consHead_consOnto, consHead_consOnto]
      rfl
    · rw [if_neg hc]
      show splitLoneAux prev (c :: (esc t' ++ r)) = _
      simp only [splitLoneAux]
      rw [if_neg (by simp [hc]), ih (some c) r, consHead_consOnto]
      rfl

/-- A lone separator tilde splits. -/
theorem splitLoneAux_tilde_cons (prev : Option Char) (r : Str)
    (hp : prev ≠ some '~') (hr : r.head? ≠ some '~') :
    splitLoneAux prev ('~' :: r) = [] :: splitLoneAux (some '~') r := by
  simp only [splitLoneAux]
  rw [if_pos ⟨trivial, hp, hr⟩]

theorem esc_head?_ne (t : Str) (h : t.head? ≠ some '~') :
    (esc t).head? ≠ some '~' := by
  cases t with
  | nil => simp [esc_nil]
  | cons c t' =>
    rw [esc_cons]
    rw [List.head?_cons] at h
    rw [if_neg (by simpa using h)]
    simpa using h

theorem joinTilde_head? (x : Str) (l : List Str) (hx : x ≠ []) :
    (joinTilde (x :: l)).head? = x.head? := by
  cases l with
  | nil => rfl
  | cons y l' =>
    show (x ++ '~' :: joinTilde (y :: l')).head? = x.head?
    cases x with
    | nil => exact absurd rfl hx
    | cons c x' => simp

/-- Splitting the encoding of well-formed adjacent terms recovers the
escaped terms. -/
theorem splitLoneAux_joinTilde :
    ∀ (T : List Str) (prev : Option Char),
    (∀ t ∈ T, t ≠ []) →
    List.Chain' (fun a b => a.getLast? ≠ some '~' ∧ b.head? ≠ some '~') T →
    T ≠ [] →
    splitLoneAux prev (joinTilde (T.map esc)) = T.map esc := by
  intro T
  induction T with
  | nil => intro _ _ _ h; exact absurd rfl h
  | cons t T' ih =>
    intro prev hne hch _
    cases T' with
    | nil =>
      show splitLoneAux prev (joinTilde [esc t]) = [esc t]
      show splitLoneAux prev (esc t) = [esc t]
      have h := splitLoneAux_esc_append t prev []
      rw [List.append_nil] at h
      rw [h]
      simp [splitLoneAux, consOnto]
    | cons t₂ T'' =>
      have hR := (List.chain'_cons.mp hch).1
      have hch' := (List.chain'_cons.mp hch).2
      have ht : t ≠ [] := hne t (by simp)
      have ht₂ : t₂ ≠ [] := hne t₂ (by simp)
      show splitLoneAux prev
          (esc t ++ '~' :: joinTilde (esc t₂ :: T''.map esc)) = _
      rw [splitLoneAux_esc_append t prev]
      rw [ctxAfter_of_ne_nil t prev ht]
      rw [splitLoneAux_tilde_cons _ _ hR.1
        (by
          rw [joinTilde_head? _ _ (esc_ne_nil t₂ ht₂)]
          exact esc_head?_ne t₂ hR.2)]
      have hih := ih (some '~') (fun u hu => hne u (by simp [hu])) hch' (by simp)
      rw [List.map_cons] at hih
      rw [hih]
      simp [consOnto]

/-- Unescaping inverts escaping on a single term. -/
theorem unescape_esc : ∀ t : Str, unescape (esc t) = t
  | [] => rfl
  | c :: t' => by
    rw [esc_cons]
    by_cases hc : c = '~'
    · subst hc
      rw [if_pos rfl]
      show unescape ('~' :: '~' :: esc t') = '~' :: t'
      simp only [unescape]
      rw [if_pos ⟨trivial, trivial⟩, unescape_esc t']
    · rw [if_neg hc]
      show unescape (c :: esc t') = c :: t'
      cases h : esc t' with
      | nil =>
        rw [(esc_eq_nil_iff t').mp h]
        rfl
      | cons d ds =>
        simp only [unescape]
        rw [if_neg (by simp [hc]), ← h, unescape_esc t']

/-! ## Claim C1 -/

/-- C1 as stated is false: for the sequence `["a~", "b"]` of non-empty
terms without line terminators, the encoding is `"a~~~b"`, in which no
tilde is lone, so decoding yields `["a~~b"]`, not `["a~", "b"]`. -/
theorem C1_counterexample :
    (∀ t ∈ [['a', '~'], ['b']], t ≠ [] ∧ '\n' ∉ t ∧ '\r' ∉ t) ∧
    decode (encode [['a', '~'], ['b']]) ≠ [['a', '~'], ['b']] := by
  decide

/-- C1 (amended): decoding inverts encoding for every finite sequence of
non-empty terms without line terminators in which additionally no
adjacent pair of terms has the earlier term ending with `~` or the later
term beginning with `~`. -/
theorem C1_round_trip_amended (T : List Str)
    (hterms : ∀ t ∈ T, t ≠ [] ∧ '\n' ∉ t ∧ '\r' ∉ t)
    (hadj : List.Chain'
      (fun a b => a.getLast? ≠ some '~' ∧ b.head? ≠ some '~') T) :
    decode (encode T) = T := by
  cases T with
  | nil => rfl
  | cons t T' =>
    unfold decode encode
    rw [splitLoneAux_joinTilde (t :: T') none
      (fun u hu => (hterms u hu).1) hadj (by simp)]
    rw [List.filter_eq_self.mpr
      (fun s hs => by
        obtain ⟨u, hu, rfl⟩ := List.mem_map.mp hs
        have := esc_ne_nil u (hterms u hu).1
        simpa [List.length_pos] using this)]
    rw [List.map_map]
    calc (t :: T').map (unescape ∘ esc)
        = (t :: T').map id := List.map_congr_left
          (fun u _ => unescape_esc u)
      _ = t :: T' := List.map_id _

/-- Witness for C1 (amended) at the concrete input `["a~b", "c"]`. -/
theorem C1_round_trip_amended_witness :
    decode (encode [['a', '~', 'b'], ['c']]) = [['a', '~', 'b'], ['c']] :=
  C1_round_trip_amended [['a', '~', 'b'], ['c']] (by decide)
    (List.chain'_cons.mpr
      ⟨⟨by decide, by decide⟩, List.chain'_singleton _⟩)

/-! ## Claim C8 -/

/-- C8: the three concrete escaping examples: `encode ["a~b"] = "a~~b"`,
`decode "a~~b" = ["a~b"]`, `decode "a~b" = ["a", "b"]`. -/
theorem C8_escaping_examples :
    encode [['a', '~', 'b']] = "a~~b".toList ∧
    decode ("a~~b".toList) = [['a', '~', 'b']] ∧
    decode ("a~b".toList) = [['a'], ['b']] := by
  decide

/-! ## Claim C9 -/

/-- C9: decoding the empty fragment yields the empty term sequence, and
whenever the highlight parameter is absent, or decodes to no terms, or the
content root is missing, the highlight effect creates no marker (no DOM
mutation, teardown a no-op). -/
theorem C9_empty_highlight_no_op :
    decode [] = [] ∧
    ∀ (search : Str) (rootExists : Bool),
      (getQueryParamter search ("highlight".toList) = none →
        highlightEffect search rootExists = none) ∧
      (∀ p, getQueryParamter search ("highlight".toList) = some p →
        decode p = [] → highlightEffect search rootExists = none) ∧
      highlightEffect search false = none := by
  refine ⟨rfl, fun search rootExists => ⟨?_, ?_, ?_⟩⟩
  · intro h
    unfold highlightEffect
    rw [h]
  · intro p hp hd
    unfold highlightEffect
    rw [hp]
    by_cases he : p.isEmpty
    · simp [he]
    · simp [he, hd]
  · unfold highlightEffect
    cases getQueryParamter search ("highlight".toList) with
    | none => rfl
    | some p =>
      by_cases he : p.isEmpty <;> simp [he]

/-- Witness for C9 at the concrete search string `"?highlight=~"`, whose
parameter decodes to no terms. -/
theorem C9_empty_highlight_no_op_witness :
    highlightEffect ("?highlight=~".toList) true = none :=
  ((C9_empty_highlight_no_op.2 ("?highlight=~".toList) true).2.1
    ("~".toList) (by decide)) (by decide)

/-! ## Claim C2 -/

/-- C2 as stated is false: a query result whose `ref` matches no document
id is not dropped by the ranker — `Array.prototype.find` returns
`undefined` and the result is kept with a missing document. -/
theorem C2_counterexample :
    (rank [⟨['1'], 1⟩] [] []).length = 1 ∧
    ∃ r ∈ rank [⟨['1'], 1⟩] [] [], r.document = none := by
  decide

/-- C2 (amended): a query result whose `ref` matches no document id in the
loaded document table is kept, not dropped: if it survives the score
filter and truncation, the ranker emits a `SearchResult` for it whose
`document` field is missing (`none`), and the join itself never shrinks
the list (it is a total `map`), so the ranker does not crash. -/
theorem C2_unmatched_ref_kept (results : List QueryResult)
    (documents : List Document) (terms : List Str) (q : QueryResult)
    (hq : q ∈ rankKept results)
    (hnone : ∀ d ∈ documents, natToStr d.id ≠ q.ref) :
    (⟨none, q.score, terms⟩ : SearchResult) ∈ rank results documents terms ∧
    (rank results documents terms).length = (rankKept results).length := by
  constructor
  · refine List.mem_map.mpr ⟨q, hq, ?_⟩
    unfold joinDoc
    rw [List.find?_eq_none.mpr
      (fun d hd => by simpa using hnone d hd)]
  · exact List.length_map _ _

/-- Witness for C2 (amended): one positive-score result with ref `"1"`
against a table containing only the document with id `2`. -/
theorem C2_unmatched_ref_kept_witness :
    (⟨none, (1 : ℚ), []⟩ : SearchResult) ∈ rank [⟨['1'], 1⟩] [⟨2, [], [], []⟩] [] ∧
    (rank [⟨['1'], 1⟩] [⟨2, [], [], []⟩] []).length
      = (rankKept [⟨['1'], 1⟩]).length :=
  C2_unmatched_ref_kept [⟨['1'], 1⟩] [⟨2, [], [], []⟩] [] ⟨['1'], 1⟩
    (by decide) (by decide)

/-! ## Claim C3 -/

/-- C3: no result with score exactly 0 appears in the ranked output; every
emitted result has strictly positive score. -/
theorem C3_no_zero_score (results : List QueryResult)
    (documents : List Document) (terms : List Str) (r : SearchResult)
    (hr : r ∈ rank results documents terms) :
    0 < r.score ∧ r.score ≠ 0 := by
  obtain ⟨q, hq, rfl⟩ := List.mem_map.mp hr
  have hq' : q ∈ results.filter (fun r => decide (0 < r.score)) :=
    List.mem_of_mem_take (by simpa [rankKept] using hq)
  have hpos : 0 < q.score := by
    simpa using (List.mem_filter.mp hq').2
  exact ⟨hpos, ne_of_gt hpos⟩

/-- Witness for C3 at a one-result, empty-table input. -/
theorem C3_no_zero_score_witness :
    0 < (joinDoc [] [] ⟨['1'], 1⟩).score ∧ (joinDoc [] [] ⟨['1'], 1⟩).score ≠ 0 :=
  C3_no_zero_score [⟨['1'], 1⟩] [] [] (joinDoc [] [] ⟨['1'], 1⟩) (by decide)

/-! ## Claim C4 -/

/-- C4: the kept results are an order-preserving subsequence of the query
output (the ranker never re-sorts, it only filters, truncates and joins),
the output has at most 8 results, and — for input sorted by descending
score with at least 8 positive-score results — exactly 8 results, each
scoring at least as high as every positive-score result left out. -/
theorem C4_order_preserving_truncation (results : List QueryResult)
    (documents : List Document) (terms : List Str) :
    (rankKept results).Sublist results ∧
    rank results documents terms
      = (rankKept results).map (joinDoc documents terms) ∧
    (rank results documents terms).length ≤ 8 ∧
    (List.Pairwise (fun a b => b.score ≤ a.score) results →
      8 ≤ (results.filter (fun r => decide (0 < r.score))).length →
      (rank results documents terms).length = 8 ∧
      ∀ x ∈ rankKept results,
        ∀ y ∈ (results.filter (fun r => decide (0 < r.score))).drop 8,
          y.score ≤ x.score) := by
  refine ⟨?_, rfl, ?_, ?_⟩
  · exact (List.take_sublist _ _).trans (List.filter_sublist _)
  · unfold rank rankKept
    rw [List.length_map, List.length_take]
    exact min_le_left _ _
  · intro hsorted hlen
    constructor
    · unfold rank rankKept
      rw [List.length_map, List.length_take]
      exact Nat.min_eq_left hlen
    · intro x hx y hy
      have hPF := hsorted.filter (fun r => decide (0 < r.score))
      rw [← List.take_append_drop 8
        (results.filter (fun r => decide (0 < r.score)))] at hPF
      exact (List.pairwise_append.mp hPF).2.2 x hx y hy

/-- Witness for C4 at a sorted input with nine positive-score results. -/
theorem C4_order_preserving_truncation_witness :
    (rank [⟨['9'], 9⟩, ⟨['8'], 8⟩, ⟨['7'], 7⟩, ⟨['6'], 6⟩, ⟨['5'], 5⟩,
      ⟨['4'], 4⟩, ⟨['3'], 3⟩, ⟨['2'], 2⟩, ⟨['1'], 1⟩] [] []).length = 8 :=
  ((C4_order_preserving_truncation
      [⟨['9'], 9⟩, ⟨['8'], 8⟩, ⟨['7'], 7⟩, ⟨['6'], 6⟩, ⟨['5'], 5⟩,
        ⟨['4'], 4⟩, ⟨['3'], 3⟩, ⟨['2'], 2⟩, ⟨['1'], 1⟩] [] []).2.2.2
    (by decide) (by decide)).1

/-! ## Claim C5 -/

/-- C5: the built query consists of exactly the four weighted clauses over
the tokenized terms — exact and trailing-wildcard on `title` with boost 5,
exact and trailing-wildcard on `content` with boost 1 — plus, exactly when
versioning is enabled, one required-presence clause on the `version` field
for the version to search, with boost 0. -/
theorem C5_query_clauses (tokenize : Str → List Str) (input : Str)
    (versioningEnabled : Bool) (versionToSearch : Str) :
    buildQuery tokenize input versioningEnabled versionToSearch =
      [⟨tokenize input, ["title"], 5, .noWildcard, .optionalP⟩,
       ⟨tokenize input, ["title"], 5, .trailing, .optionalP⟩,
       ⟨tokenize input, ["content"], 1, .noWildcard, .optionalP⟩,
       ⟨tokenize input, ["content"], 1, .trailing, .optionalP⟩]
      ++ (if versioningEnabled then
            [⟨[versionToSearch], ["version"], 0, .noWildcard, .requiredP⟩]
          else []) ∧
    ((∃ c ∈ buildQuery tokenize input versioningEnabled versionToSearch,
        c.presence = .requiredP ∧ c.boost = 0 ∧ c.fields = ["version"] ∧
        c.terms = [versionToSearch]) ↔ versioningEnabled = true) ∧
    (buildQuery tokenize input versioningEnabled versionToSearch).length
      = if versioningEnabled then 5 else 4 := by
  refine ⟨rfl, ?_, ?_⟩ <;> cases versioningEnabled <;> simp [buildQuery]

/-! ## Claim C6 -/

/-- The gate invariant: at most one fetch ever starts, and none before the
gate leaves `empty`. -/
theorem step_preserves_fetch_inv (s : SessionState) (e : LoadEvent)
    (h : s.fetches ≤ 1 ∧ (s.state = .empty → s.fetches = 0)) :
    (step s e).fetches ≤ 1 ∧
    ((step s e).state = .empty → (step s e).fetches = 0) := by
  cases e <;> simp only [step] <;> (try split) <;> simp_all <;> omega

theorem foldl_preserves_fetch_inv :
    ∀ (events : List LoadEvent) (s : SessionState),
    s.fetches ≤ 1 ∧ (s.state = .empty → s.fetches = 0) →
    (events.foldl step s).fetches ≤ 1 ∧
    ((events.foldl step s).state = .empty → (events.foldl step s).fetches = 0)
  | [], _, h => h
  | e :: es, s, h =>
    foldl_preserves_fetch_inv es (step s e) (step_preserves_fetch_inv s e h)

/-- C6: for every sequence of load intents and completions, at most one
index fetch is ever started; each atomic check-and-set step only advances
the gate forward through `empty → loading → done` (so it never returns to
`empty`), and a failed load leaves the session state unchanged (stuck in
`loading`). -/
theorem C6_single_load_monotone_gate :
    (∀ events : List LoadEvent, (runEvents events).fetches ≤ 1) ∧
    (∀ (s : SessionState) (e : LoadEvent),
      s.state.rank ≤ (step s e).state.rank) ∧
    (∀ s : SessionState, step s .completeFailure = s) := by
  refine ⟨?_, ?_, ?_⟩
  · intro events
    exact (foldl_preserves_fetch_inv events ⟨.empty, 0⟩
      ⟨by simp, fun _ => rfl⟩).1
  · intro s e
    cases e <;> simp only [step] <;> (try split) <;>
      simp_all [LoadState.rank]
  · intro s
    rfl

/-! ## Claim C7 -/

theorem splitOnChar_ne_nil (sep : Char) (s : Str) : splitOnChar sep s ≠ [] := by
  cases s with
  | nil => simp [splitOnChar]
  | cons c rest =>
    simp only [splitOnChar]
    split
    · simp
    · exact consHead_ne_nil _ _

theorem splitOnChar_append (sep : Char) :
    ∀ (a : Str), sep ∉ a →
    ∀ r, splitOnChar sep (a ++ r) = consOnto a (splitOnChar sep r)
  | [], _, r => by
    rw [List.nil_append, consOnto_nil_of_ne _ (splitOnChar_ne_nil sep r)]
  | c :: a', h, r => by
    have hc : ¬ c = sep := fun hcs => h (by simp [hcs])
    show splitOnChar sep (c :: (a' ++ r)) = _
    simp only [splitOnChar]
    rw [if_neg hc, splitOnChar_append sep a' (fun hm => h (by simp [hm])) r,
      consHead_consOnto]

theorem splitOnChar_no_sep (sep : Char) (a : Str) (h : sep ∉ a) :
    splitOnChar sep a = [a] := by
  have ha := splitOnChar_append sep a h []
  rw [List.append_nil] at ha
  rw [ha]
  simp [splitOnChar, consOnto]

/-- C7: for a selected result whose section route is a `#`-free path
optionally followed by `#` and a non-empty `#`-free fragment, the URL
navigated to is the path, then `?highlight=` followed by the
percent-encoded encoding of the result terms, then — exactly when the
route contained a fragment — `#` followed by that fragment moved to the
end. -/
theorem C7_selected_url (path : Str) (ofrag : Option Str) (terms : List Str)
    (hp : '#' ∉ path)
    (hf : ∀ f, ofrag = some f → '#' ∉ f ∧ f ≠ []) :
    selectedUrl (path ++ (match ofrag with | none => [] | some f => '#' :: f))
        terms
      = path ++ "?highlight=".toList ++ pctEnc (encode terms)
        ++ (match ofrag with | none => [] | some f => '#' :: f) := by
  cases ofrag with
  | none =>
    unfold selectedUrl splitHash
    rw [List.append_nil, splitOnChar_no_sep '#' path hp]
    simp
  | some f =>
    obtain ⟨hf1, hf2⟩ := hf f rfl
    have hfe : f.isEmpty = false := by
      cases f with
      | nil => exact absurd rfl hf2
      | cons c f' => rfl
    unfold selectedUrl splitHash
    rw [splitOnChar_append '#' path hp ('#' :: f)]
    have h1 : splitOnChar '#' ('#' :: f) = [] :: [f] := by
      simp only [splitOnChar]
      rw [if_pos trivial, splitOnChar_no_sep '#' f hf1]
    rw [h1]
    simp only [consOnto, List.append_nil]
    simp [hfe, List.append_assoc]

/-- Witness for C7 at route `/docs/install#setup` with terms
`["install", "guide"]`. -/
theorem C7_selected_url_witness :
    selectedUrl ("/docs/install".toList ++ ('#' :: "setup".toList))
        ["install".toList, "guide".toList]
      = "/docs/install".toList ++ "?highlight=".toList
        ++ pctEnc (encode ["install".toList, "guide".toList])
        ++ ('#' :: "setup".toList) :=
  C7_selected_url ("/docs/install".toList) (some ("setup".toList))
    ["install".toList, "guide".toList] (by decide)
    (fun f hf => by cases hf; exact ⟨by decide, by decide⟩)

/-! ## Claim C10

Counting argument: for a predicate `p` with `p '~' = false`, both the
decoder and the encoder preserve the total `p`-count, while
`encodeURIComponent` strictly increases the joint count of `%` and `5`
for every escaped character.  Hence a full URL-level round trip can only
recover the original terms when no character was escaped. -/

theorem sumCountP_nil (p : Char → Bool) : sumCountP p [] = 0 := rfl

theorem sumCountP_cons (p : Char → Bool) (s : Str) (l : List Str) :
    sumCountP p (s :: l) = List.countP p s + sumCountP p l := by
  simp [sumCountP]

theorem sumCountP_consHead (p : Char → Bool) (c : Char) (l : List Str) :
    sumCountP p (consHead c l)
      = (if p c then 1 else 0) + sumCountP p l := by
  cases l with
  | nil =>
    simp [consHead, sumCountP, List.countP_cons]
  | cons s ss =>
    simp only [consHead, sumCountP_cons, List.countP_cons]
    cases hp : p c <;> simp [hp] <;> omega

theorem sumCountP_splitLoneAux (p : Char → Bool) (hp : p '~' = false) :
    ∀ (prev : Option Char) (s : Str),
    sumCountP p (splitLoneAux prev s) = List.countP p s
  | _, [] => by simp [splitLoneAux, sumCountP]
  | prev, c :: rest => by
    simp only [splitLoneAux]
    split
    · rename_i hcond
      obtain ⟨hc, -, -⟩ := hcond
      subst hc
      rw [sumCountP_cons, sumCountP_splitLoneAux p hp (some '~') rest]
      simp [List.countP_cons, hp]
    · rw [sumCountP_consHead, sumCountP_splitLoneAux p hp (some c) rest,
        List.countP_cons]
      cases hpc : p c <;> simp [hpc] <;> omega

theorem sumCountP_filter_pos (p : Char → Bool) :
    ∀ l : List Str,
    sumCountP p (l.filter (fun s => 0 < s.length)) = sumCountP p l
  | [] => rfl
  | s :: l => by
    rw [List.filter_cons]
    split
    · rw [sumCountP_cons, sumCountP_cons, sumCountP_filter_pos p l]
    · rename_i hlen
      have hs : s = [] := by
        simpa [List.length_eq_zero] using hlen
      subst hs
      rw [sumCountP_cons]
      simp [sumCountP_filter_pos p l]

theorem countP_unescape (p : Char → Bool) (hp : p '~' = false) :
    ∀ t : Str, List.countP p (unescape t) = List.countP p t
  | [] => rfl
  | [_] => rfl
  | c₁ :: c₂ :: rest => by
    simp only [unescape]
    split
    · rename_i hcond
      obtain ⟨h1, h2⟩ := hcond
      subst h1
      subst h2
      simp [List.countP_cons, hp, countP_unescape p hp rest]
    · simp [List.countP_cons, countP_unescape p hp (c₂ :: rest)]

theorem sumCountP_map_unescape (p : Char → Bool) (hp : p '~' = false)
    (l : List Str) :
    sumCountP p (l.map unescape) = sumCountP p l := by
  induction l with
  | nil => rfl
  | cons s l ih =>
    simp [sumCountP_cons, countP_unescape p hp, ih]

theorem countP_joinTilde (p : Char → Bool) (hp : p '~' = false) :
    ∀ l : List Str, List.countP p (joinTilde l) = sumCountP p l
  | [] => rfl
  | [t] => by simp [joinTilde, sumCountP]
  | t :: t' :: ts => by
    show List.countP p (t ++ '~' :: joinTilde (t' :: ts)) = _
    rw [List.countP_append, List.countP_cons,
      countP_joinTilde p hp (t' :: ts), hp]
    simp [sumCountP_cons]

theorem countP_esc (p : Char → Bool) (hp : p '~' = false) :
    ∀ t : Str, List.countP p (esc t) = List.countP p t
  | [] => rfl
  | c :: t => by
    rw [esc_cons]
    by_cases hc : c = '~'
    · subst hc
      rw [if_pos rfl]
      simp [List.countP_append, List.countP_cons, hp, countP_esc p hp t]
    · rw [if_neg hc]
      simp [List.countP_append, List.countP_cons, countP_esc p hp t]

/-- Decoding preserves the total count of every non-tilde character. -/
theorem sumCountP_decode (p : Char → Bool) (hp : p '~' = false) (s : Str) :
    sumCountP p (decode s) = List.countP p s := by
  unfold decode
  rw [sumCountP_map_unescape p hp, sumCountP_filter_pos p,
    sumCountP_splitLoneAux p hp none s]

/-- Encoding preserves the total count of every non-tilde character. -/
theorem countP_encode (p : Char → Bool) (hp : p '~' = false) (T : List Str) :
    List.countP p (encode T) = sumCountP p T := by
  unfold encode
  rw [countP_joinTilde p hp]
  induction T with
  | nil => rfl
  | cons t T ih => simp [sumCountP_cons, countP_esc p hp, ih]

theorem getD_holds {α : Type} (P : α → Prop) :
    ∀ (l : List α) (d : α), P d → (∀ x ∈ l, P x) →
    ∀ n, P (l.getD n d)
  | [], _, hd, _, _ => by simpa using hd
  | x :: _, _, _, hl, 0 => by simpa using hl x (by simp)
  | _ :: l, d, hd, hl, n + 1 => by
    simpa using getD_holds P l d hd (fun y hy => hl y (by simp [hy])) n

theorem hexDigit_ne_amp (n : Nat) : hexDigit n ≠ '&' :=
  getD_holds (fun x => x ≠ '&') _ '0' (by decide) (by decide) n

theorem amp_not_mem_pctEnc (s : Str) : '&' ∉ pctEnc s := by
  intro hmem
  obtain ⟨c, -, hc⟩ := List.mem_flatMap.mp hmem
  unfold pctEncChar at hc
  split at hc
  · rename_i hun
    rw [List.mem_singleton] at hc
    subst hc
    exact absurd hun (by decide)
  · obtain ⟨b, -, hb⟩ := List.mem_flatMap.mp hc
    unfold pctTriple at hb
    have hb' : '&' = '%' ∨ '&' = hexDigit (b / 16) ∨ '&' = hexDigit (b % 16) := by
      simpa using hb
    rcases hb' with h | h | h
    · exact absurd h (by decide)
    · exact absurd h.symm (hexDigit_ne_amp _)
    · exact absurd h.symm (hexDigit_ne_amp _)

/-- The highlight parameter is extracted verbatim from the search string:
no percent-decoding is applied. -/
theorem getQueryParamter_embed (v : Str) (hv : '&' ∉ v) :
    getQueryParamter ('?' :: ("highlight=".toList ++ v))
        ("highlight".toList) = some v := by
  have hpre : "highlight".toList ++ ['='] = "highlight=".toList := by decide
  have hamp : '&' ∉ "highlight=".toList ++ v := by
    intro hm
    rcases List.mem_append.mp hm with hm | hm
    · exact absurd hm (by decide)
    · exact hv hm
  have h0 : getQueryParamter ('?' :: ("highlight=".toList ++ v))
        ("highlight".toList)
      = findParam ("highlight".toList ++ ['='])
          (splitOnChar '&' ("highlight=".toList ++ v)) := by
    unfold getQueryParamter
    simp
  rw [h0, splitOnChar_no_sep '&' _ hamp, hpre]
  unfold findParam
  rw [if_pos (List.isPrefixOf_iff_prefix.mpr (List.prefix_append _ _))]
  rw [List.drop_left]

theorem utf8Bytes_ne_nil (c : Char) : utf8Bytes c ≠ [] := by
  unfold utf8Bytes
  split
  · simp
  · split
    · simp
    · split <;> simp

theorem countP_pctTriple_pos (b : Nat) :
    1 ≤ List.countP wPred (pctTriple b) :=
  Nat.succ_le_of_lt (List.countP_pos_iff.mpr
    ⟨'%', by simp [pctTriple], by decide⟩)

theorem wPred_pctEncChar (c : Char) (hc : isUnreservedURI c = false) :
    List.countP wPred [c] + 1 ≤ List.countP wPred (pctEncChar c) := by
  by_cases hpc : c = '%'
  · subst hpc
    decide
  · have hc5 : c ≠ '5' := fun h => absurd hc (by subst h; decide)
    have hw : wPred c = false := by
      unfold wPred
      simp [hpc, hc5]
    have hl : List.countP wPred [c] = 0 := by
      simp [List.countP_cons, hw]
    rw [hl]
    unfold pctEncChar
    rw [if_neg (by simp [hc])]
    obtain ⟨b, bs, hb⟩ : ∃ b bs, utf8Bytes c = b :: bs := by
      cases h : utf8Bytes c with
      | nil => exact absurd h (utf8Bytes_ne_nil c)
      | cons b bs => exact ⟨b, bs, rfl⟩
    rw [hb, List.flatMap_cons, List.countP_append]
    have := countP_pctTriple_pos b
    omega

/-- Every character escaped by `encodeURIComponent` strictly increases the
joint count of `%` and `5`. -/
theorem wPred_pctEnc (s : Str) :
    List.countP wPred s + List.countP escPred s
      ≤ List.countP wPred (pctEnc s) := by
  induction s with
  | nil => simp [pctEnc]
  | cons c s ih =>
    show _ ≤ List.countP wPred (pctEncChar c ++ pctEnc s)
    rw [List.countP_append, List.countP_cons, List.countP_cons]
    by_cases hc : isUnreservedURI c = true
    · have h1 : pctEncChar c = [c] := by
        unfold pctEncChar
        rw [if_pos hc]
      have h2 : escPred c = false := by
        unfold escPred
        simp [hc]
      rw [h1, h2, List.countP_cons, List.countP_nil]
      simp only [Bool.false_eq_true, if_false, Nat.zero_add, Nat.add_zero]
      omega
    · have hcf : isUnreservedURI c = false := by
        simpa using hc
      have h2 : escPred c = true := by
        unfold escPred
        simp [hcf]
      have h6 := wPred_pctEncChar c hcf
      rw [List.countP_cons, List.countP_nil] at h6
      rw [h2]
      simp only [Nat.zero_add] at h6
      simp only [eq_self_iff_true, if_true]
      omega

theorem pctEnc_eq_self_of_forall :
    ∀ t : Str, (∀ a ∈ t, escPred a = false) → pctEnc t = t
  | [], _ => rfl
  | c :: t, h => by
    have hc := h c (by simp)
    have hun : isUnreservedURI c = true := by
      unfold escPred at hc
      simpa using hc
    show pctEncChar c ++ pctEnc t = c :: t
    rw [pctEnc_eq_self_of_forall t (fun a ha => h a (by simp [ha]))]
    unfold pctEncChar
    rw [if_pos hun]
    rfl

/-- A term with no escapable character is unchanged by
`encodeURIComponent`. -/
theorem pctEnc_eq_self (t : Str) (h : List.countP escPred t = 0) :
    pctEnc t = t :=
  pctEnc_eq_self_of_forall t (fun a ha => by
    have := List.countP_eq_zero.mp h a ha
    simpa using this)

theorem sum_nat_eq_zero {l : List Nat} (h : l.sum = 0) :
    ∀ x ∈ l, x = 0 := by
  induction l with
  | nil => simp
  | cons a l ih =>
    rw [List.sum_cons] at h
    intro x hx
    rcases List.mem_cons.mp hx with rfl | hx
    · omega
    · exact ih (by omega) x hx

/-- C10: the `highlight` value is extracted verbatim from the URL's search
string (no percent-decoding before splitting), while the encoding side
applies `encodeURIComponent`; consequently the full URL-level round trip
(encode, embed percent-encoded, extract, decode) can recover the original
terms only when every term is left unchanged by `encodeURIComponent`. -/
theorem C10_verbatim_extraction_roundtrip (T : List Str) :
    getQueryParamter ('?' :: ("highlight=".toList ++ pctEnc (encode T)))
        ("highlight".toList)
      = some (pctEnc (encode T)) ∧
    (decode (pctEnc (encode T)) = T → ∀ t ∈ T, pctEnc t = t) := by
  constructor
  · exact getQueryParamter_embed _ (amp_not_mem_pctEnc _)
  · intro h t ht
    have e1 : sumCountP wPred T
        = List.countP wPred (pctEnc (encode T)) := by
      calc sumCountP wPred T
          = sumCountP wPred (decode (pctEnc (encode T))) := by rw [h]
        _ = List.countP wPred (pctEnc (encode T)) :=
            sumCountP_decode wPred (by decide) _
    have e2 := wPred_pctEnc (encode T)
    have e3 : List.countP wPred (encode T) = sumCountP wPred T :=
      countP_encode wPred (by decide) T
    have e4 : List.countP escPred (encode T) = 0 := by omega
    have e5 : sumCountP escPred T = 0 := by
      rw [← countP_encode escPred (by decide) T]
      exact e4
    have e6 : List.countP escPred t = 0 :=
      sum_nat_eq_zero e5 _ (List.mem_map_of_mem _ ht)
    exact pctEnc_eq_self t e6

/-- Witness for C10 at the single unreserved term `["a"]`, for which the
round trip does recover the terms and every term is indeed unchanged. -/
theorem C10_verbatim_extraction_roundtrip_witness :
    pctEnc ['a'] = ['a'] ∧
    getQueryParamter ('?' :: ("highlight=".toList ++ pctEnc (encode [['a']])))
        ("highlight".toList) = some (pctEnc (encode [['a']])) :=
  ⟨(C10_verbatim_extraction_roundtrip [['a']]).2 (by decide) ['a'] (by simp),
   (C10_verbatim_extraction_roundtrip [['a']]).1⟩

end DocusaurusSearchLocal
